import Mathlib

/-!
# Verification of the scantool code-map engine

Shallow embedding of `src/scantool/code_map.py` (import-graph builder,
centrality ranker, file discovery, analysis orchestrator) together with the
call-graph builder and hot-node ranker described by the specification
(`call_graph.py` is referenced by the orchestrator but its source is not
present, so those parts are modelled from the spec).

Python dicts are modelled by `OMap`: a lookup function paired with the
insertion-ordered key list, mirroring dict insertion-order semantics.
-/

namespace Scantool

/-- Insertion-ordered string-keyed map, modelling a Python `dict`. -/
structure OMap (α : Type) where
  lookup : String → Option α
  keys : List String

namespace OMap

def empty {α : Type} : OMap α := ⟨fun _ => none, []⟩

/-- `m[k] = v`: overwrites the value; appends the key only when new. -/
def set {α : Type} (m : OMap α) (k : String) (v : α) : OMap α :=
  { lookup := fun x => if x = k then some v else m.lookup x
    keys := if (m.lookup k).isSome then m.keys else m.keys ++ [k] }

/-- `k in m` -/
def contains {α : Type} (m : OMap α) (k : String) : Bool :=
  (m.lookup k).isSome

/-- `list(m.values())` -/
def values {α : Type} (m : OMap α) : List α :=
  m.keys.filterMap m.lookup

@[simp] theorem lookup_set {α : Type} (m : OMap α) (k : String) (v : α) (x : String) :
    (m.set k v).lookup x = if x = k then some v else m.lookup x := rfl

@[simp] theorem lookup_empty {α : Type} (x : String) :
    (empty : OMap α).lookup x = none := rfl

end OMap

/-- `ImportInfo` record, constructor fields as used by
`PythonAnalyzer.extract_imports` in `analyzers/python_analyzer.py`. -/
structure ImportInfo where
  source_file : String
  target_module : String
  line : Nat := 0
  import_type : String := "import"
  imported_names : List String := []
deriving Repr, DecidableEq

/-- `FileNode` as used by `CodeMap._build_import_graph` /
`_calculate_centrality`: path, `imports` and `imported_by` edge lists,
centrality score. -/
structure FileNode where
  path : String
  imports : List String := []
  imported_by : List String := []
  centrality_score : Nat := 0
deriving Repr, DecidableEq

/-- Modelled from the spec: `Definition` record
(`{file, qualified_name, kind, start_line, end_line}`); the defining module
(`analyzers/models.py`) is not among the sources. `type` is the field name
used by consumers (`test_code_map.py` reads `d.type`). -/
structure DefinitionInfo where
  file : String
  qualified_name : String
  type : String := "function"
  start_line : Nat := 0
  end_line : Nat := 0
deriving Repr, DecidableEq

/-- Modelled from the spec: `Call` record
(`{caller_context (file or enclosing Definition), callee_reference, line}`);
the defining module is not among the sources. `caller_context` is the
enclosing definition's qualified name when the call is inside one. -/
structure CallInfo where
  caller_file : String
  caller_context : Option String := none
  callee_reference : String
  line : Nat := 0
deriving Repr, DecidableEq

/-- Modelled from the spec: `CallGraphNode`
(`{fqn, kind, callers, callees, centrality_score}`); field names follow the
consumers in `code_map.py` (`func.name`, `func.type`, `func.callers`,
`func.callees`, `func.centrality_score`). -/
structure CallGraphNode where
  name : String
  type : String := "function"
  callers : List String := []
  callees : List String := []
  centrality_score : Nat := 0
deriving Repr, DecidableEq

/-- The import graph: `dict[str, FileNode]`. -/
abbrev Graph := OMap FileNode

/-- The call graph: `dict[str, CallGraphNode]`. -/
abbrev CallGraph := OMap CallGraphNode

/-!
## String primitives

Structurally recursive models of the Python string operations the source
uses (`in`, `str.split`, `str.join`, truthiness), over `String.data`.
-/

/-- Python `c in s` for a single-character needle. -/
def strContains (s : String) (c : Char) : Bool := s.data.contains c

/-- Python `s.split(c)` on the character list: keeps empty pieces and
yields `[[]]` on the empty string, like `str.split` with an explicit
separator. -/
def splitChars (c : Char) : List Char → List (List Char)
  | [] => [[]]
  | x :: xs =>
      match splitChars c xs with
      | [] => if x = c then [[], []] else [[x]]
      | y :: ys => if x = c then [] :: y :: ys else (x :: y) :: ys

/-- Python `s.split(c)` for a single-character separator. -/
def strSplit (s : String) (c : Char) : List String :=
  (splitChars c s.data).map List.asString

/-- Python `sep.join(parts)`. -/
def strJoin (sep : String) : List String → String
  | [] => ""
  | [x] => x
  | x :: y :: ys => x ++ sep ++ strJoin sep (y :: ys)

/-- Python truthiness of a string: non-empty. -/
def strNonEmpty (s : String) : Bool := !s.data.isEmpty

/-!
## `CodeMap._resolve_import_to_file`
-/

/-- The `for candidate in candidates: if candidate in all_files: return candidate`
loop of `_resolve_import_to_file`. -/
def findCandidate : List String → List String → Option String
  | [], _ => none
  | c :: cs, allFiles => if c ∈ allFiles then some c else findCandidate cs allFiles

/-- `CodeMap._resolve_import_to_file(module, all_files)`. -/
def resolveImportToFile (module : String) (allFiles : List String) : Option String :=
  if strContains module '/' then
    -- Already a file path (relative import pre-resolved by the analyzer)
    let candidate := module ++ ".py"
    if candidate ∈ allFiles then some candidate else none
  else
    let parts := strSplit module '.'
    findCandidate
      [ strJoin "/" parts ++ ".py"
      , strJoin "/" (parts.drop 1) ++ ".py"
      , strJoin "/" parts ++ "/__init__.py" ]
      allFiles

/-!
## `CodeMap._build_import_graph`
-/

/-- `if target_file not in graph[source_file].imports:
graph[source_file].imports.append(target_file)`. The key is present at
every call site; the `none` branch is unreachable. -/
def appendImport (g : Graph) (source_file target_file : String) : Graph :=
  match g.lookup source_file with
  | some n =>
      if target_file ∈ n.imports then g
      else g.set source_file { n with imports := n.imports ++ [target_file] }
  | none => g

/-- `if source_file not in graph[target_file].imported_by:
graph[target_file].imported_by.append(source_file)`. -/
def appendImportedBy (g : Graph) (target_file source_file : String) : Graph :=
  match g.lookup target_file with
  | some n =>
      if source_file ∈ n.imported_by then g
      else g.set target_file { n with imported_by := n.imported_by ++ [source_file] }
  | none => g

/-- The two membership-guarded edge appends of `_build_import_graph`. -/
def addImportEdge (g : Graph) (source_file target_file : String) : Graph :=
  appendImportedBy (appendImport g source_file target_file) target_file source_file

/-- `if source_file not in graph: graph[source_file] = FileNode(path=source_file)`. -/
def ensureSource (g : Graph) (source_file : String) : Graph :=
  if (g.lookup source_file).isSome then g
  else g.set source_file { path := source_file }

/-- One iteration of the `for imp in imports` loop of `_build_import_graph`. -/
def processImport (allFiles : List String) (g : Graph) (imp : ImportInfo) : Graph :=
  -- Ensure source file exists in graph
  let g := ensureSource g imp.source_file
  -- Try to resolve target module to a file
  match resolveImportToFile imp.target_module allFiles with
  | none => g
  | some target_file =>
      -- `if target_file and target_file in graph:`
      if strNonEmpty target_file && (g.lookup target_file).isSome then
        addImportEdge g imp.source_file target_file
      else g

/-- The node-initialization loop of `_build_import_graph`:
one `FileNode` per entry of `all_files`. -/
def initNodes (allFiles : List String) : Graph :=
  allFiles.foldl (fun g p => g.set p { path := p }) OMap.empty

/-- `CodeMap._build_import_graph(imports, all_files)`. -/
def buildImportGraph (imports : List ImportInfo) (allFiles : List String) : Graph :=
  imports.foldl (processImport allFiles) (initNodes allFiles)

/-!
## `CodeMap._calculate_centrality`
-/

/-- `CodeMap._calculate_centrality`: for every node,
`centrality_score = len(imported_by) * 2 + len(imports)`. -/
def calculateCentrality (g : Graph) : Graph :=
  { lookup := fun k =>
      (g.lookup k).map fun n =>
        { n with centrality_score := n.imported_by.length * 2 + n.imports.length }
    keys := g.keys }

/-!
## `CodeMap._discover_files`
-/

/-- One filesystem entry as seen by the `rglob` loop of `_discover_files`:
its path relative to the root, whether it is a regular file, and whether the
gitignore rules match it. -/
structure DirEntry where
  path : String
  isFile : Bool
  ignored : Bool
deriving Repr, DecidableEq

/-- The `for path in rglob` loop of `_discover_files`: skip non-files and
ignored entries; `break` when the accumulated list has reached `max_files`. -/
def discoverLoop (maxFiles : Nat) : List DirEntry → List String → List String
  | [], files => files
  | e :: rest, files =>
    if !e.isFile then discoverLoop maxFiles rest files
    else if e.ignored then discoverLoop maxFiles rest files
    else if maxFiles ≤ files.length then files
    else discoverLoop maxFiles rest (files ++ [e.path])

/-- `CodeMap._discover_files` over an abstract directory listing. -/
def discoverFiles (entries : List DirEntry) (maxFiles : Nat) : List String :=
  discoverLoop maxFiles entries []

/-!
## Call graph builder (`call_graph.py`)

The module `call_graph.py` is referenced by `code_map.py`
(`call_graph.build_call_graph`, `call_graph.calculate_centrality`,
`call_graph.find_hot_functions`) but its source is not present; the
definitions below are modelled from the spec (§4.2, §4.3).
-/

/-- Modelled from the spec: the fqn combining a Definition's file and
in-file qualified name (`fqn = file:qualified_name`). -/
def DefinitionInfo.fqn (d : DefinitionInfo) : String :=
  d.file ++ ":" ++ d.qualified_name

/-- Modelled from the spec: the caller's fqn — the enclosing Definition's
fqn, or a synthetic file-level fqn when the call is not inside any known
Definition. -/
def CallInfo.callerFqn (c : CallInfo) : String :=
  match c.caller_context with
  | some ctx => c.caller_file ++ ":" ++ ctx
  | none => c.caller_file ++ ":" ++ "<module>"

/-- Modelled from the spec: the name index of §4.2 step 1 — plain
`qualified_name` (ignoring file) to the list of Definition fqns sharing
that name. -/
def nameIndex (defs : List DefinitionInfo) (name : String) : List String :=
  (defs.filter fun d => d.qualified_name = name).map DefinitionInfo.fqn

/-- Modelled from the spec: lazy node creation — a node for `fqn` is added
only when none exists yet. -/
def ensureCallNode (g : CallGraph) (fqn : String) : CallGraph :=
  if (g.lookup fqn).isSome then g else g.set fqn { name := fqn }

/-- Modelled from the spec: membership-guarded append to a node's
`callees` set. -/
def appendCallee (g : CallGraph) (caller callee : String) : CallGraph :=
  match g.lookup caller with
  | some n =>
      if callee ∈ n.callees then g
      else g.set caller { n with callees := n.callees ++ [callee] }
  | none => g

/-- Modelled from the spec: membership-guarded append to a node's
`callers` set. -/
def appendCaller (g : CallGraph) (callee caller : String) : CallGraph :=
  match g.lookup callee with
  | some n =>
      if caller ∈ n.callers then g
      else g.set callee { n with callers := n.callers ++ [caller] }
  | none => g

/-- Modelled from the spec: the two symmetric membership-guarded appends,
exactly as in §4.1. -/
def addCallEdgeCore (g : CallGraph) (caller callee : String) : CallGraph :=
  appendCaller (appendCallee g caller callee) callee caller

/-- Modelled from the spec: a caller→callee edge maintained in symmetric
`callers`/`callees` sets exactly as in §4.1 (membership-guarded appends),
on lazily-created nodes. -/
def addCallEdge (g : CallGraph) (caller callee : String) : CallGraph :=
  addCallEdgeCore (ensureCallNode (ensureCallNode g caller) callee) caller callee

/-- Modelled from the spec: §4.2 step 2 — look the callee reference up in
the name index; zero matches drop the call, multiple matches fan out to all
candidates. -/
def processCall (index : String → List String) (g : CallGraph) (c : CallInfo) : CallGraph :=
  (index c.callee_reference).foldl (fun g t => addCallEdge g c.callerFqn t) g

/-- Modelled from the spec: `build_call_graph(definitions, calls)` — one
node per Definition (identity `(file, qualified_name)`, collisions
overwritten by last-seen), then edges from the resolved calls. -/
def buildCallGraph (defs : List DefinitionInfo) (calls : List CallInfo) : CallGraph :=
  let g0 := defs.foldl
    (fun g d => g.set d.fqn { name := d.fqn, type := d.type }) OMap.empty
  calls.foldl (processCall (nameIndex defs)) g0

/-- Modelled from the spec: `calculate_centrality` for the call graph —
the same `2 * |incoming| + 1 * |outgoing|` formula, applied uniformly. -/
def callCalculateCentrality (g : CallGraph) : CallGraph :=
  { lookup := fun k =>
      (g.lookup k).map fun n =>
        { n with centrality_score := n.callers.length * 2 + n.callees.length }
    keys := g.keys }

/-- Modelled from the spec: the sort key of `find_hot_functions` —
descending centrality score, ties broken by ascending lexical order of the
node's identity string. -/
def hotLe (a b : CallGraphNode) : Bool :=
  decide (b.centrality_score < a.centrality_score ∨
    (a.centrality_score = b.centrality_score ∧ a.name ≤ b.name))

/-- Modelled from the spec: `find_hot_functions(graph, top_n)` — the
graph's nodes sorted by descending score (deterministic tie-break by
identity string), truncated to at most `top_n`. Takes the graph's node
list (`graph.values()`). -/
def findHotFunctions (nodes : List CallGraphNode) (top_n : Nat) : List CallGraphNode :=
  (nodes.mergeSort hotLe).take top_n

/-!
## `CodeMap.analyze` (orchestrator)
-/

/-- The per-file extractor output consumed by the orchestrator's
accumulation loop (spec §6: `extract_imports`, `extract_definitions`,
`extract_calls` for one file). -/
structure FileExtraction where
  imports : List ImportInfo := []
  definitions : List DefinitionInfo := []
  calls : List CallInfo := []
deriving Repr

/-- The record accumulators of `CodeMap.analyze` phase 2
(`all_imports`, `all_definitions`, `all_calls`). -/
structure Accum where
  imports : List ImportInfo := []
  definitions : List DefinitionInfo := []
  calls : List CallInfo := []
deriving Repr

/-- One iteration of the phase-2 loop of `analyze`. `extract f = none`
models the three `continue` branches (no analyzer for the extension, file
read failure, `should_analyze` false): the file contributes nothing.
Definitions and calls are extracted only when Layer 2 is enabled. -/
def analyzeStep (enableLayer2 : Bool) (extract : String → Option FileExtraction)
    (acc : Accum) (f : String) : Accum :=
  match extract f with
  | none => acc
  | some ex =>
      { imports := acc.imports ++ ex.imports
        definitions :=
          if enableLayer2 then acc.definitions ++ ex.definitions else acc.definitions
        calls := if enableLayer2 then acc.calls ++ ex.calls else acc.calls }

/-- Phase 2 of `analyze`: accumulate records over all discovered files. -/
def accumulate (enableLayer2 : Bool) (files : List String)
    (extract : String → Option FileExtraction) : Accum :=
  files.foldl (analyzeStep enableLayer2 extract) {}

/-- Modelled from the spec: the `CodeMapResult` fields relevant to the
graph engine (`analyzers/models.py` is not among the sources); defaults
model the freshly-constructed result object (empty mappings and lists). -/
structure CodeMapResult where
  total_files : Nat := 0
  import_graph : Graph := OMap.empty
  files : List FileNode := []
  definitions : List DefinitionInfo := []
  calls : List CallInfo := []
  call_graph : CallGraph := OMap.empty
  hot_functions : List CallGraphNode := []

/-- `CodeMap.analyze`: discovery is supplied as the file list; extraction
as a per-file function. Phases: accumulate records, build the import graph,
calculate file centrality, then — only when Layer 2 is enabled **and** the
definition list is non-empty — build the call graph, its centrality and the
hot-function list (`top_n=10`). -/
def analyze (enableLayer2 : Bool) (files : List String)
    (extract : String → Option FileExtraction) : CodeMapResult :=
  let acc := accumulate enableLayer2 files extract
  let importGraph := calculateCentrality (buildImportGraph acc.imports files)
  let base : CodeMapResult :=
    { total_files := files.length
      import_graph := importGraph
      files := importGraph.values }
  if enableLayer2 && !acc.definitions.isEmpty then
    let cg := callCalculateCentrality (buildCallGraph acc.definitions acc.calls)
    { base with
        definitions := acc.definitions
        calls := acc.calls
        call_graph := cg
        hot_functions := findHotFunctions cg.values 10 }
  else base

/-!
## Properties and concrete fixtures
-/

/-- Edge symmetry of the import graph:
`B ∈ A.imports ⇔ A ∈ B.imported_by` (existence included). -/
def GraphSymm (g : Graph) : Prop :=
  ∀ a b : String,
    (∃ na, g.lookup a = some na ∧ b ∈ na.imports) ↔
    (∃ nb, g.lookup b = some nb ∧ a ∈ nb.imported_by)

/-- Edge symmetry of the call graph:
`B ∈ A.callees ⇔ A ∈ B.callers` (existence included). -/
def CallSymm (g : CallGraph) : Prop :=
  ∀ a b : String,
    (∃ na, g.lookup a = some na ∧ b ∈ na.callees) ↔
    (∃ nb, g.lookup b = some nb ∧ a ∈ nb.callers)

/-- Every node of the import graph has empty edge sets. -/
def AllEmptyG (g : Graph) : Prop :=
  ∀ a na, g.lookup a = some na → na.imports = [] ∧ na.imported_by = []

/-- Every node of the call graph has empty edge sets. -/
def AllEmptyC (g : CallGraph) : Prop :=
  ∀ a na, g.lookup a = some na → na.callees = [] ∧ na.callers = []

/-- No duplicate targets in any edge set of the import graph. -/
def EdgeNodupG (g : Graph) : Prop :=
  ∀ a na, g.lookup a = some na → na.imports.Nodup ∧ na.imported_by.Nodup

/-- No duplicate targets in any edge set of the call graph. -/
def EdgeNodupC (g : CallGraph) : Prop :=
  ∀ a na, g.lookup a = some na → na.callees.Nodup ∧ na.callers.Nodup

/-- Combined invariant carried through the import-graph construction. -/
def InvG (g : Graph) : Prop := GraphSymm g ∧ EdgeNodupG g

/-- Combined invariant carried through the call-graph construction. -/
def InvC (g : CallGraph) : Prop := CallSymm g ∧ EdgeNodupC g

/-- The hot-list ordering as a proposition: descending centrality score,
ties broken by ascending lexical order of the identity string. -/
def HotOrder (a b : CallGraphNode) : Prop :=
  b.centrality_score < a.centrality_score ∨
    (a.centrality_score = b.centrality_score ∧ a.name ≤ b.name)

/-- Concrete extractor: `a.py` imports module `b`; reading `b.py` fails
(it contributes nothing). -/
def cexExtract : String → Option FileExtraction := fun f =>
  if f = "a.py" then some { imports := [⟨"a.py", "b", 1, "import", []⟩] } else none

/-- Concrete extractor: `a.py` yields one call and no definitions. -/
def noDefsExtract : String → Option FileExtraction := fun f =>
  if f = "a.py" then some { calls := [⟨"a.py", none, "run", 1⟩] } else none

/-- Concrete directory listing with three plain files. -/
def capEntries : List DirEntry :=
  [⟨"a.py", true, false⟩, ⟨"b.py", true, false⟩, ⟨"c.py", true, false⟩]

/-!
## Basic lemmas about the map operations
-/

theorem OMap.isSome_lookup_set {α : Type} (m : OMap α) (k x : String) (v : α)
    (h : (m.lookup x).isSome) : ((m.set k v).lookup x).isSome := by
  simp only [OMap.lookup_set]
  split <;> simp [h]

theorem OMap.lookup_set_ne {α : Type} (m : OMap α) (k x : String) (v : α)
    (h : x ≠ k) : (m.set k v).lookup x = m.lookup x := by
  simp [OMap.lookup_set, h]

theorem appendImport_of_mem (g : Graph) (s t : String) (n : FileNode)
    (h : g.lookup s = some n) (hm : t ∈ n.imports) :
    appendImport g s t = g := by
  unfold appendImport
  rw [h]
  simp [hm]

theorem appendImport_of_not_mem (g : Graph) (s t : String) (n : FileNode)
    (h : g.lookup s = some n) (hm : t ∉ n.imports) :
    appendImport g s t = g.set s { n with imports := n.imports ++ [t] } := by
  unfold appendImport
  rw [h]
  simp [hm]

theorem appendImportedBy_of_mem (g : Graph) (t s : String) (n : FileNode)
    (h : g.lookup t = some n) (hm : s ∈ n.imported_by) :
    appendImportedBy g t s = g := by
  unfold appendImportedBy
  rw [h]
  simp [hm]

theorem appendImportedBy_of_not_mem (g : Graph) (t s : String) (n : FileNode)
    (h : g.lookup t = some n) (hm : s ∉ n.imported_by) :
    appendImportedBy g t s = g.set t { n with imported_by := n.imported_by ++ [s] } := by
  unfold appendImportedBy
  rw [h]
  simp [hm]

theorem appendImport_of_none (g : Graph) (s t : String)
    (h : g.lookup s = none) : appendImport g s t = g := by
  unfold appendImport
  rw [h]

theorem appendImportedBy_of_none (g : Graph) (t s : String)
    (h : g.lookup t = none) : appendImportedBy g t s = g := by
  unfold appendImportedBy
  rw [h]

theorem ensureSource_of_isSome (g : Graph) (s : String)
    (h : (g.lookup s).isSome) : ensureSource g s = g := by
  unfold ensureSource
  simp [h]

theorem ensureSource_of_none (g : Graph) (s : String)
    (h : g.lookup s = none) : ensureSource g s = g.set s { path := s } := by
  unfold ensureSource
  simp [h]

theorem ensureSource_isSome_self (g : Graph) (s : String) :
    ((ensureSource g s).lookup s).isSome := by
  unfold ensureSource
  split
  · assumption
  · simp

/-- Under symmetry, reverse-edge membership mirrors forward membership. -/
theorem mem_imported_by_iff_of_symm (g : Graph) (hsym : GraphSymm g)
    (s t : String) (ns nt : FileNode)
    (hs : g.lookup s = some ns) (ht : g.lookup t = some nt) :
    t ∈ ns.imports ↔ s ∈ nt.imported_by := by
  constructor
  · intro hm
    obtain ⟨nb, hnb, hb⟩ := (hsym s t).mp ⟨ns, hs, hm⟩
    rw [ht] at hnb
    cases hnb
    exact hb
  · intro hm
    obtain ⟨na, hna, ha⟩ := (hsym s t).mpr ⟨nt, ht, hm⟩
    rw [hs] at hna
    cases hna
    exact ha

/-!
## Description of `addImportEdge`
-/

theorem addImportEdge_of_mem (g : Graph) (s t : String) (ns nt : FileNode)
    (hs : g.lookup s = some ns) (ht : g.lookup t = some nt)
    (hsym : GraphSymm g) (hm : t ∈ ns.imports) :
    addImportEdge g s t = g := by
  unfold addImportEdge
  rw [appendImport_of_mem g s t ns hs hm]
  exact appendImportedBy_of_mem g t s nt ht
    ((mem_imported_by_iff_of_symm g hsym s t ns nt hs ht).mp hm)

theorem addImportEdge_of_not_mem_ne (g : Graph) (s t : String) (ns nt : FileNode)
    (hs : g.lookup s = some ns) (ht : g.lookup t = some nt)
    (hsym : GraphSymm g) (hm : t ∉ ns.imports) (hts : t ≠ s) :
    addImportEdge g s t =
      (g.set s { ns with imports := ns.imports ++ [t] }).set t
        { nt with imported_by := nt.imported_by ++ [s] } := by
  unfold addImportEdge
  rw [appendImport_of_not_mem g s t ns hs hm]
  have hlt : ((g.set s { ns with imports := ns.imports ++ [t] }).lookup t) = some nt := by
    rw [OMap.lookup_set_ne _ _ _ _ hts]
    exact ht
  exact appendImportedBy_of_not_mem _ t s nt hlt
    (fun hc => hm ((mem_imported_by_iff_of_symm g hsym s t ns nt hs ht).mpr hc))

theorem addImportEdge_of_not_mem_self (g : Graph) (s : String) (ns : FileNode)
    (hs : g.lookup s = some ns) (hsym : GraphSymm g) (hm : s ∉ ns.imports) :
    addImportEdge g s s =
      (g.set s { ns with imports := ns.imports ++ [s] }).set s
        { ns with imports := ns.imports ++ [s], imported_by := ns.imported_by ++ [s] } := by
  unfold addImportEdge
  rw [appendImport_of_not_mem g s s ns hs hm]
  have hlt : ((g.set s { ns with imports := ns.imports ++ [s] }).lookup s)
      = some { ns with imports := ns.imports ++ [s] } := by
    simp
  have hns : s ∉ ({ ns with imports := ns.imports ++ [s] } : FileNode).imported_by :=
    fun hc => hm ((mem_imported_by_iff_of_symm g hsym s s ns ns hs hs).mpr hc)
  exact appendImportedBy_of_not_mem _ s s _ hlt hns

/-!
## Edge characterization of `addImportEdge`
-/

theorem addImportEdge_edge_iff (g : Graph) (s t : String) (ns nt : FileNode)
    (hs : g.lookup s = some ns) (ht : g.lookup t = some nt)
    (hsym : GraphSymm g) (a b : String) :
    (∃ na, (addImportEdge g s t).lookup a = some na ∧ b ∈ na.imports) ↔
    ((∃ na, g.lookup a = some na ∧ b ∈ na.imports) ∨ (a = s ∧ b = t)) := by
  by_cases hm : t ∈ ns.imports
  · rw [addImportEdge_of_mem g s t ns nt hs ht hsym hm]
    constructor
    · exact fun h => Or.inl h
    · rintro (h | ⟨ha, hb⟩)
      · exact h
      · subst ha
        subst hb
        exact ⟨ns, hs, hm⟩
  · by_cases hts : t = s
    · subst hts
      rw [hs] at ht
      cases ht
      rw [addImportEdge_of_not_mem_self g t ns hs hsym hm]
      constructor
      · rintro ⟨na, hna, hb⟩
        simp only [OMap.lookup_set] at hna
        by_cases hat : a = t
        · simp only [if_pos hat] at hna
          cases hna
          rcases List.mem_append.mp hb with hb' | hb'
          · exact Or.inl ⟨ns, by rw [hat]; exact hs, hb'⟩
          · exact Or.inr ⟨hat, List.mem_singleton.mp hb'⟩
        · simp only [if_neg hat] at hna
          exact Or.inl ⟨na, hna, hb⟩
      · rintro (⟨na, hna, hb⟩ | ⟨ha, hb⟩)
        · simp only [OMap.lookup_set]
          by_cases hat : a = t
          · rw [hat] at hna
            rw [hs] at hna
            cases hna
            refine ⟨{ ns with imports := ns.imports ++ [t], imported_by := ns.imported_by ++ [t] },
              ?_, ?_⟩
            · simp [hat]
            · exact List.mem_append_left _ hb
          · refine ⟨na, ?_, hb⟩
            simpa [hat] using hna
        · refine ⟨{ ns with imports := ns.imports ++ [t], imported_by := ns.imported_by ++ [t] },
            ?_, ?_⟩
          · simp [OMap.lookup_set, ha]
          · rw [hb]
            exact List.mem_append_right _ (List.mem_singleton_self t)
    · rw [addImportEdge_of_not_mem_ne g s t ns nt hs ht hsym hm hts]
      have hst : s ≠ t := fun h => hts h.symm
      constructor
      · rintro ⟨na, hna, hb⟩
        simp only [OMap.lookup_set] at hna
        by_cases hat : a = t
        · simp only [if_pos hat] at hna
          cases hna
          exact Or.inl ⟨nt, by rw [hat]; exact ht, hb⟩
        · simp only [if_neg hat] at hna
          by_cases has : a = s
          · simp only [if_pos has] at hna
            cases hna
            rcases List.mem_append.mp hb with hb' | hb'
            · exact Or.inl ⟨ns, by rw [has]; exact hs, hb'⟩
            · exact Or.inr ⟨has, List.mem_singleton.mp hb'⟩
          · simp only [if_neg has] at hna
            exact Or.inl ⟨na, hna, hb⟩
      · rintro (⟨na, hna, hb⟩ | ⟨ha, hb⟩)
        · simp only [OMap.lookup_set]
          by_cases hat : a = t
          · rw [hat] at hna
            rw [ht] at hna
            cases hna
            refine ⟨{ nt with imported_by := nt.imported_by ++ [s] }, ?_, ?_⟩
            · simp [hat]
            · exact hb
          · by_cases has : a = s
            · rw [has] at hna
              rw [hs] at hna
              cases hna
              refine ⟨{ ns with imports := ns.imports ++ [t] }, ?_, ?_⟩
              · simp [has, hst]
              · exact List.mem_append_left _ hb
            · refine ⟨na, ?_, hb⟩
              simpa [hat, has] using hna
        · refine ⟨{ ns with imports := ns.imports ++ [t] }, ?_, ?_⟩
          · simp [OMap.lookup_set, ha, hst]
          · rw [hb]
            exact List.mem_append_right _ (List.mem_singleton_self t)

theorem addImportEdge_revEdge_iff (g : Graph) (s t : String) (ns nt : FileNode)
    (hs : g.lookup s = some ns) (ht : g.lookup t = some nt)
    (hsym : GraphSymm g) (a b : String) :
    (∃ nb, (addImportEdge g s t).lookup b = some nb ∧ a ∈ nb.imported_by) ↔
    ((∃ nb, g.lookup b = some nb ∧ a ∈ nb.imported_by) ∨ (a = s ∧ b = t)) := by
  by_cases hm : t ∈ ns.imports
  · rw [addImportEdge_of_mem g s t ns nt hs ht hsym hm]
    constructor
    · exact fun h => Or.inl h
    · rintro (h | ⟨ha, hb⟩)
      · exact h
      · subst ha
        subst hb
        exact ⟨nt, ht, (mem_imported_by_iff_of_symm g hsym a b ns nt hs ht).mp hm⟩
  · by_cases hts : t = s
    · subst hts
      rw [hs] at ht
      cases ht
      rw [addImportEdge_of_not_mem_self g t ns hs hsym hm]
      constructor
      · rintro ⟨nb, hnb, hb⟩
        simp only [OMap.lookup_set] at hnb
        by_cases hbt : b = t
        · simp only [if_pos hbt] at hnb
          cases hnb
          rcases List.mem_append.mp hb with hb' | hb'
          · exact Or.inl ⟨ns, by rw [hbt]; exact hs, hb'⟩
          · exact Or.inr ⟨List.mem_singleton.mp hb', hbt⟩
        · simp only [if_neg hbt] at hnb
          exact Or.inl ⟨nb, hnb, hb⟩
      · rintro (⟨nb, hnb, hb⟩ | ⟨ha, hb⟩)
        · simp only [OMap.lookup_set]
          by_cases hbt : b = t
          · rw [hbt] at hnb
            rw [hs] at hnb
            cases hnb
            refine ⟨{ ns with imports := ns.imports ++ [t], imported_by := ns.imported_by ++ [t] },
              ?_, ?_⟩
            · simp [hbt]
            · exact List.mem_append_left _ hb
          · refine ⟨nb, ?_, hb⟩
            simpa [hbt] using hnb
        · refine ⟨{ ns with imports := ns.imports ++ [t], imported_by := ns.imported_by ++ [t] },
            ?_, ?_⟩
          · simp [OMap.lookup_set, hb]
          · rw [ha]
            exact List.mem_append_right _ (List.mem_singleton_self t)
    · rw [addImportEdge_of_not_mem_ne g s t ns nt hs ht hsym hm hts]
      have hst : s ≠ t := fun h => hts h.symm
      constructor
      · rintro ⟨nb, hnb, hb⟩
        simp only [OMap.lookup_set] at hnb
        by_cases hbt : b = t
        · simp only [if_pos hbt] at hnb
          cases hnb
          rcases List.mem_append.mp hb with hb' | hb'
          · exact Or.inl ⟨nt, by rw [hbt]; exact ht, hb'⟩
          · exact Or.inr ⟨List.mem_singleton.mp hb', hbt⟩
        · simp only [if_neg hbt] at hnb
          by_cases hbs : b = s
          · simp only [if_pos hbs] at hnb
            cases hnb
            exact Or.inl ⟨ns, by rw [hbs]; exact hs, hb⟩
          · simp only [if_neg hbs] at hnb
            exact Or.inl ⟨nb, hnb, hb⟩
      · rintro (⟨nb, hnb, hb⟩ | ⟨ha, hb⟩)
        · simp only [OMap.lookup_set]
          by_cases hbt : b = t
          · rw [hbt] at hnb
            rw [ht] at hnb
            cases hnb
            refine ⟨{ nt with imported_by := nt.imported_by ++ [s] }, ?_, ?_⟩
            · simp [hbt]
            · exact List.mem_append_left _ hb
          · by_cases hbs : b = s
            · rw [hbs] at hnb
              rw [hs] at hnb
              cases hnb
              refine ⟨{ ns with imports := ns.imports ++ [t] }, ?_, ?_⟩
              · simp [hbs, hst]
              · exact hb
            · refine ⟨nb, ?_, hb⟩
              simpa [hbt, hbs] using hnb
        · refine ⟨{ nt with imported_by := nt.imported_by ++ [s] }, ?_, ?_⟩
          · simp [OMap.lookup_set, hb]
          · rw [ha]
            exact List.mem_append_right _ (List.mem_singleton_self s)

/-!
## Invariant preservation for the import-graph builder
-/

theorem graphSymm_addImportEdge (g : Graph) (s t : String) (ns nt : FileNode)
    (hs : g.lookup s = some ns) (ht : g.lookup t = some nt)
    (hsym : GraphSymm g) : GraphSymm (addImportEdge g s t) := by
  intro a b
  rw [addImportEdge_edge_iff g s t ns nt hs ht hsym a b,
    addImportEdge_revEdge_iff g s t ns nt hs ht hsym a b, hsym a b]

theorem edgeNodupG_addImportEdge (g : Graph) (s t : String) (ns nt : FileNode)
    (hs : g.lookup s = some ns) (ht : g.lookup t = some nt)
    (hsym : GraphSymm g) (hnd : EdgeNodupG g) : EdgeNodupG (addImportEdge g s t) := by
  by_cases hm : t ∈ ns.imports
  · rw [addImportEdge_of_mem g s t ns nt hs ht hsym hm]
    exact hnd
  · by_cases hts : t = s
    · subst hts
      rw [hs] at ht
      cases ht
      rw [addImportEdge_of_not_mem_self g t ns hs hsym hm]
      intro a na hna
      simp only [OMap.lookup_set] at hna
      by_cases hat : a = t
      · simp only [if_pos hat] at hna
        cases hna
        have hmb : t ∉ ns.imported_by :=
          fun hc => hm ((mem_imported_by_iff_of_symm g hsym t t ns ns hs hs).mpr hc)
        exact ⟨List.Nodup.concat hm (hnd t ns hs).1 |>.sublist (by simp),
          List.Nodup.concat hmb (hnd t ns hs).2 |>.sublist (by simp)⟩
      · simp only [if_neg hat] at hna
        exact hnd a na hna
    · rw [addImportEdge_of_not_mem_ne g s t ns nt hs ht hsym hm hts]
      intro a na hna
      simp only [OMap.lookup_set] at hna
      by_cases hat : a = t
      · simp only [if_pos hat] at hna
        cases hna
        have hmb : s ∉ nt.imported_by :=
          fun hc => hm ((mem_imported_by_iff_of_symm g hsym s t ns nt hs ht).mpr hc)
        exact ⟨(hnd t nt ht).1,
          List.Nodup.concat hmb (hnd t nt ht).2 |>.sublist (by simp)⟩
      · simp only [if_neg hat] at hna
        by_cases has : a = s
        · simp only [if_pos has] at hna
          cases hna
          exact ⟨List.Nodup.concat hm (hnd s ns hs).1 |>.sublist (by simp),
            (hnd s ns hs).2⟩
        · simp only [if_neg has] at hna
          exact hnd a na hna

theorem invG_set_fresh (g : Graph) (s : String)
    (hn : g.lookup s = none) (hinv : InvG g) : InvG (g.set s { path := s }) := by
  obtain ⟨hsym, hnd⟩ := hinv
  constructor
  · intro a b
    constructor
    · rintro ⟨na, hna, hb⟩
      simp only [OMap.lookup_set] at hna
      by_cases has : a = s
      · simp only [if_pos has] at hna
        cases hna
        simp at hb
      · simp only [if_neg has] at hna
        obtain ⟨nb, hnb, hab⟩ := (hsym a b).mp ⟨na, hna, hb⟩
        by_cases hbs : b = s
        · rw [hbs, hn] at hnb
          cases hnb
        · exact ⟨nb, by simp only [OMap.lookup_set, if_neg hbs]; exact hnb, hab⟩
    · rintro ⟨nb, hnb, hb⟩
      simp only [OMap.lookup_set] at hnb
      by_cases hbs : b = s
      · simp only [if_pos hbs] at hnb
        cases hnb
        simp at hb
      · simp only [if_neg hbs] at hnb
        obtain ⟨na, hna, hab⟩ := (hsym a b).mpr ⟨nb, hnb, hb⟩
        by_cases has : a = s
        · rw [has, hn] at hna
          cases hna
        · exact ⟨na, by simp only [OMap.lookup_set, if_neg has]; exact hna, hab⟩
  · intro a na hna
    simp only [OMap.lookup_set] at hna
    by_cases has : a = s
    · simp only [if_pos has] at hna
      cases hna
      constructor <;> simp
    · simp only [if_neg has] at hna
      exact hnd a na hna

theorem invG_ensureSource (g : Graph) (s : String) (hinv : InvG g) :
    InvG (ensureSource g s) := by
  cases hl : g.lookup s with
  | some n =>
      rw [ensureSource_of_isSome g s (by rw [hl]; rfl)]
      exact hinv
  | none =>
      rw [ensureSource_of_none g s hl]
      exact invG_set_fresh g s hl hinv

theorem invG_processImport (allFiles : List String) (g : Graph) (imp : ImportInfo)
    (hinv : InvG g) : InvG (processImport allFiles g imp) := by
  unfold processImport
  have hinv1 : InvG (ensureSource g imp.source_file) := invG_ensureSource g _ hinv
  cases hres : resolveImportToFile imp.target_module allFiles with
  | none => exact hinv1
  | some target_file =>
      simp only []
      split
      · rename_i hcond
        have hts : ((ensureSource g imp.source_file).lookup target_file).isSome :=
          (Bool.and_eq_true _ _ |>.mp hcond).2
        have hss : ((ensureSource g imp.source_file).lookup imp.source_file).isSome :=
          ensureSource_isSome_self g imp.source_file
        obtain ⟨ns, hns⟩ := Option.isSome_iff_exists.mp hss
        obtain ⟨nt, hnt⟩ := Option.isSome_iff_exists.mp hts
        exact ⟨graphSymm_addImportEdge _ _ _ ns nt hns hnt hinv1.1,
          edgeNodupG_addImportEdge _ _ _ ns nt hns hnt hinv1.1 hinv1.2⟩
      · exact hinv1

theorem allEmptyG_initNodes (allFiles : List String) : AllEmptyG (initNodes allFiles) := by
  unfold initNodes
  have h : ∀ (l : List String) (g : Graph), AllEmptyG g →
      AllEmptyG (l.foldl (fun g p => g.set p { path := p }) g) := by
    intro l
    induction l with
    | nil => exact fun g hg => hg
    | cons p rest ih =>
        intro g hg
        refine ih _ ?_
        intro a na hna
        simp only [OMap.lookup_set] at hna
        by_cases hap : a = p
        · simp only [if_pos hap] at hna
          cases hna
          exact ⟨rfl, rfl⟩
        · simp only [if_neg hap] at hna
          exact hg a na hna
  exact h allFiles OMap.empty (by intro a na hna; simp at hna)

theorem invG_of_allEmpty (g : Graph) (h : AllEmptyG g) : InvG g := by
  constructor
  · intro a b
    constructor
    · rintro ⟨na, hna, hb⟩
      rw [(h a na hna).1] at hb
      simp at hb
    · rintro ⟨nb, hnb, hb⟩
      rw [(h b nb hnb).2] at hb
      simp at hb
  · intro a na hna
    rw [(h a na hna).1, (h a na hna).2]
    exact ⟨List.nodup_nil, List.nodup_nil⟩

theorem invG_buildImportGraph (imports : List ImportInfo) (allFiles : List String) :
    InvG (buildImportGraph imports allFiles) := by
  unfold buildImportGraph
  have h : ∀ (l : List ImportInfo) (g : Graph), InvG g →
      InvG (l.foldl (processImport allFiles) g) := by
    intro l
    induction l with
    | nil => exact fun g hg => hg
    | cons imp rest ih =>
        intro g hg
        exact ih _ (invG_processImport allFiles g imp hg)
  exact h imports _ (invG_of_allEmpty _ (allEmptyG_initNodes allFiles))

/-!
## Coverage: every discovered file keeps a node
-/

theorem isSome_appendImport (g : Graph) (s t x : String)
    (h : (g.lookup x).isSome) : ((appendImport g s t).lookup x).isSome := by
  cases hl : g.lookup s with
  | none =>
      rw [appendImport_of_none g s t hl]
      exact h
  | some n =>
      by_cases hm : t ∈ n.imports
      · rw [appendImport_of_mem g s t n hl hm]
        exact h
      · rw [appendImport_of_not_mem g s t n hl hm]
        exact OMap.isSome_lookup_set g s x _ h

theorem isSome_appendImportedBy (g : Graph) (t s x : String)
    (h : (g.lookup x).isSome) : ((appendImportedBy g t s).lookup x).isSome := by
  cases hl : g.lookup t with
  | none =>
      rw [appendImportedBy_of_none g t s hl]
      exact h
  | some n =>
      by_cases hm : s ∈ n.imported_by
      · rw [appendImportedBy_of_mem g t s n hl hm]
        exact h
      · rw [appendImportedBy_of_not_mem g t s n hl hm]
        exact OMap.isSome_lookup_set g t x _ h

theorem isSome_ensureSource (g : Graph) (s x : String)
    (h : (g.lookup x).isSome) : ((ensureSource g s).lookup x).isSome := by
  unfold ensureSource
  split
  · exact h
  · exact OMap.isSome_lookup_set g s x _ h

theorem isSome_processImport (allFiles : List String) (g : Graph) (imp : ImportInfo)
    (x : String) (h : (g.lookup x).isSome) :
    ((processImport allFiles g imp).lookup x).isSome := by
  unfold processImport
  have h1 : ((ensureSource g imp.source_file).lookup x).isSome :=
    isSome_ensureSource g _ x h
  cases resolveImportToFile imp.target_module allFiles with
  | none => exact h1
  | some target_file =>
      simp only []
      split
      · exact isSome_appendImportedBy _ _ _ x (isSome_appendImport _ _ _ x h1)
      · exact h1

theorem isSome_initNodes (allFiles : List String) (p : String) (hp : p ∈ allFiles) :
    ((initNodes allFiles).lookup p).isSome := by
  unfold initNodes
  have h : ∀ (l : List String) (g : Graph), (p ∈ l ∨ (g.lookup p).isSome) →
      ((l.foldl (fun g q => g.set q { path := q }) g).lookup p).isSome := by
    intro l
    induction l with
    | nil =>
        intro g hg
        rcases hg with hg | hg
        · simp at hg
        · exact hg
    | cons q rest ih =>
        intro g hg
        refine ih _ ?_
        rcases hg with hg | hg
        · rcases List.mem_cons.mp hg with hpq | hp'
          · right
            simp [OMap.lookup_set, hpq]
          · left
            exact hp'
        · right
          exact OMap.isSome_lookup_set g q p _ hg
  exact h allFiles OMap.empty (Or.inl hp)

theorem isSome_buildImportGraph (imports : List ImportInfo) (allFiles : List String)
    (p : String) (hp : p ∈ allFiles) :
    ((buildImportGraph imports allFiles).lookup p).isSome := by
  unfold buildImportGraph
  have h : ∀ (l : List ImportInfo) (g : Graph), ((g.lookup p).isSome) →
      (((l.foldl (processImport allFiles) g).lookup p)).isSome := by
    intro l
    induction l with
    | nil => exact fun g hg => hg
    | cons imp rest ih =>
        intro g hg
        exact ih _ (isSome_processImport allFiles g imp p hg)
  exact h imports _ (isSome_initNodes allFiles p hp)

theorem lookup_calculateCentrality (g : Graph) (k : String) :
    (calculateCentrality g).lookup k =
      (g.lookup k).map fun n =>
        { n with centrality_score := n.imported_by.length * 2 + n.imports.length } := rfl

/-!
## The failed file's outgoing edge set stays empty
-/

theorem lookup_appendImport_ne (g : Graph) (s t x : String) (hx : x ≠ s) :
    (appendImport g s t).lookup x = g.lookup x := by
  cases hl : g.lookup s with
  | none => rw [appendImport_of_none g s t hl]
  | some n =>
      by_cases hm : t ∈ n.imports
      · rw [appendImport_of_mem g s t n hl hm]
      · rw [appendImport_of_not_mem g s t n hl hm]
        exact OMap.lookup_set_ne g s x _ hx

theorem lookup_ensureSource_ne (g : Graph) (s x : String) (hx : x ≠ s) :
    (ensureSource g s).lookup x = g.lookup x := by
  unfold ensureSource
  split
  · rfl
  · exact OMap.lookup_set_ne g s x _ hx

theorem imports_appendImportedBy (g : Graph) (t s x : String) (n : FileNode)
    (h : g.lookup x = some n) :
    ∃ n', (appendImportedBy g t s).lookup x = some n' ∧ n'.imports = n.imports := by
  cases hl : g.lookup t with
  | none =>
      rw [appendImportedBy_of_none g t s hl]
      exact ⟨n, h, rfl⟩
  | some m =>
      by_cases hm : s ∈ m.imported_by
      · rw [appendImportedBy_of_mem g t s m hl hm]
        exact ⟨n, h, rfl⟩
      · rw [appendImportedBy_of_not_mem g t s m hl hm]
        by_cases hxt : x = t
        · refine ⟨{ m with imported_by := m.imported_by ++ [s] }, ?_, ?_⟩
          · simp [OMap.lookup_set, hxt]
          · rw [hxt] at h
            rw [hl] at h
            cases h
            rfl
        · refine ⟨n, ?_, rfl⟩
          rw [OMap.lookup_set_ne g t x _ hxt]
          exact h

theorem imports_processImport (allFiles : List String) (g : Graph) (imp : ImportInfo)
    (f : String) (hne : imp.source_file ≠ f) (n : FileNode) (h : g.lookup f = some n) :
    ∃ n', (processImport allFiles g imp).lookup f = some n' ∧ n'.imports = n.imports := by
  unfold processImport
  have h1 : (ensureSource g imp.source_file).lookup f = some n := by
    rw [lookup_ensureSource_ne g _ f (fun hc => hne hc.symm)]
    exact h
  cases resolveImportToFile imp.target_module allFiles with
  | none => exact ⟨n, h1, rfl⟩
  | some target_file =>
      simp only []
      split
      · unfold addImportEdge
        have h2 : (appendImport (ensureSource g imp.source_file) imp.source_file
            target_file).lookup f = some n := by
          rw [lookup_appendImport_ne _ _ _ f (fun hc => hne hc.symm)]
          exact h1
        exact imports_appendImportedBy _ target_file imp.source_file f n h2
      · exact ⟨n, h1, rfl⟩

theorem imports_buildImportGraph (imports : List ImportInfo) (allFiles : List String)
    (f : String) (hf : f ∈ allFiles)
    (hsrc : ∀ imp ∈ imports, imp.source_file ≠ f) :
    ∃ n, (buildImportGraph imports allFiles).lookup f = some n ∧ n.imports = [] := by
  unfold buildImportGraph
  obtain ⟨n0, hn0⟩ := Option.isSome_iff_exists.mp (isSome_initNodes allFiles f hf)
  have hempty : n0.imports = [] := (allEmptyG_initNodes allFiles f n0 hn0).1
  have h : ∀ (l : List ImportInfo) (g : Graph) (n : FileNode),
      (∀ imp ∈ l, imp.source_file ≠ f) → g.lookup f = some n → n.imports = [] →
      ∃ n', ((l.foldl (processImport allFiles) g).lookup f) = some n' ∧ n'.imports = [] := by
    intro l
    induction l with
    | nil => exact fun g n _ hg hi => ⟨n, hg, hi⟩
    | cons imp rest ih =>
        intro g n hl hg hi
        obtain ⟨n', hn', hi'⟩ := imports_processImport allFiles g imp f
          (hl imp (List.mem_cons_self imp rest)) n hg
        exact ih _ n' (fun i hi2 => hl i (List.mem_cons_of_mem imp hi2)) hn' (hi'.trans hi)
  exact h imports _ n0 hsrc hn0 hempty

/-!
## Accumulation lemmas
-/

theorem analyzeStep_not_from_failed (el : Bool)
    (extract : String → Option FileExtraction) (f p : String) (acc : Accum)
    (hfail : extract f = none)
    (hwfp : ∀ ex, extract p = some ex →
      (∀ imp ∈ ex.imports, imp.source_file = p) ∧
      (∀ d ∈ ex.definitions, d.file = p) ∧
      (∀ c ∈ ex.calls, c.caller_file = p))
    (h1 : ∀ imp ∈ acc.imports, imp.source_file ≠ f)
    (h2 : ∀ d ∈ acc.definitions, d.file ≠ f)
    (h3 : ∀ c ∈ acc.calls, c.caller_file ≠ f) :
    (∀ imp ∈ (analyzeStep el extract acc p).imports, imp.source_file ≠ f) ∧
    (∀ d ∈ (analyzeStep el extract acc p).definitions, d.file ≠ f) ∧
    (∀ c ∈ (analyzeStep el extract acc p).calls, c.caller_file ≠ f) := by
  unfold analyzeStep
  cases hex : extract p with
  | none => exact ⟨h1, h2, h3⟩
  | some ex =>
      have hpf : p ≠ f := fun hc => by rw [hc, hfail] at hex; cases hex
      obtain ⟨w1, w2, w3⟩ := hwfp ex hex
      refine ⟨?_, ?_, ?_⟩
      · intro r hr
        rcases List.mem_append.mp hr with hr' | hr'
        · exact h1 r hr'
        · rw [w1 r hr']
          exact hpf
      · intro r hr
        replace hr : r ∈ (if el = true then acc.definitions ++ ex.definitions
          else acc.definitions) := hr
        by_cases hel : el = true
        · rw [if_pos hel] at hr
          rcases List.mem_append.mp hr with hr' | hr'
          · exact h2 r hr'
          · rw [w2 r hr']
            exact hpf
        · rw [if_neg hel] at hr
          exact h2 r hr
      · intro r hr
        replace hr : r ∈ (if el = true then acc.calls ++ ex.calls
          else acc.calls) := hr
        by_cases hel : el = true
        · rw [if_pos hel] at hr
          rcases List.mem_append.mp hr with hr' | hr'
          · exact h3 r hr'
          · rw [w3 r hr']
            exact hpf
        · rw [if_neg hel] at hr
          exact h3 r hr

theorem accumulate_not_from_failed (el : Bool) (files : List String)
    (extract : String → Option FileExtraction) (f : String)
    (hfail : extract f = none)
    (hwf : ∀ p ∈ files, ∀ ex, extract p = some ex →
      (∀ imp ∈ ex.imports, imp.source_file = p) ∧
      (∀ d ∈ ex.definitions, d.file = p) ∧
      (∀ c ∈ ex.calls, c.caller_file = p)) :
    (∀ imp ∈ (accumulate el files extract).imports, imp.source_file ≠ f) ∧
    (∀ d ∈ (accumulate el files extract).definitions, d.file ≠ f) ∧
    (∀ c ∈ (accumulate el files extract).calls, c.caller_file ≠ f) := by
  unfold accumulate
  have h : ∀ (l : List String) (acc : Accum),
      (∀ p ∈ l, ∀ ex, extract p = some ex →
        (∀ imp ∈ ex.imports, imp.source_file = p) ∧
        (∀ d ∈ ex.definitions, d.file = p) ∧
        (∀ c ∈ ex.calls, c.caller_file = p)) →
      (∀ imp ∈ acc.imports, imp.source_file ≠ f) →
      (∀ d ∈ acc.definitions, d.file ≠ f) →
      (∀ c ∈ acc.calls, c.caller_file ≠ f) →
      (∀ imp ∈ (l.foldl (analyzeStep el extract) acc).imports, imp.source_file ≠ f) ∧
      (∀ d ∈ (l.foldl (analyzeStep el extract) acc).definitions, d.file ≠ f) ∧
      (∀ c ∈ (l.foldl (analyzeStep el extract) acc).calls, c.caller_file ≠ f) := by
    intro l
    induction l with
    | nil => exact fun acc _ h1 h2 h3 => ⟨h1, h2, h3⟩
    | cons p rest ih =>
        intro acc hl h1 h2 h3
        obtain ⟨s1, s2, s3⟩ := analyzeStep_not_from_failed el extract f p acc hfail
          (hl p (List.mem_cons_self p rest)) h1 h2 h3
        exact ih _ (fun q hq => hl q (List.mem_cons_of_mem p hq)) s1 s2 s3
  refine h files {} hwf ?_ ?_ ?_ <;>
    exact fun r hr => absurd hr (List.not_mem_nil r)

theorem accumulate_definitions_nil (el : Bool) (files : List String)
    (extract : String → Option FileExtraction)
    (h : ∀ p ∈ files, ∀ ex, extract p = some ex → ex.definitions = []) :
    (accumulate el files extract).definitions = [] := by
  unfold accumulate
  have hgen : ∀ (l : List String) (acc : Accum),
      (∀ p ∈ l, ∀ ex, extract p = some ex → ex.definitions = []) →
      (l.foldl (analyzeStep el extract) acc).definitions = acc.definitions := by
    intro l
    induction l with
    | nil => exact fun acc _ => rfl
    | cons p rest ih =>
        intro acc hl
        rw [List.foldl_cons, ih _ (fun q hq => hl q (List.mem_cons_of_mem p hq))]
        unfold analyzeStep
        cases hex : extract p with
        | none => rfl
        | some ex =>
            simp only []
            rw [hl p (List.mem_cons_self p rest) ex hex]
            split <;> simp
  exact hgen files {} h

/-!
## Unfolding lemmas for `analyze`
-/

theorem analyze_import_graph_eq (el : Bool) (files : List String)
    (extract : String → Option FileExtraction) :
    (analyze el files extract).import_graph =
      calculateCentrality (buildImportGraph (accumulate el files extract).imports files) := by
  simp only [analyze]
  split <;> rfl

theorem analyze_total_files_eq (el : Bool) (files : List String)
    (extract : String → Option FileExtraction) :
    (analyze el files extract).total_files = files.length := by
  simp only [analyze]
  split <;> rfl

theorem analyze_of_defs_nil (files : List String)
    (extract : String → Option FileExtraction)
    (h : (accumulate true files extract).definitions = []) :
    (analyze true files extract).call_graph = OMap.empty ∧
    (analyze true files extract).hot_functions = [] ∧
    (analyze true files extract).calls = [] ∧
    (analyze true files extract).definitions = [] := by
  simp [analyze, h]

/-!
## Discovery cap
-/

theorem discoverLoop_length_le (maxFiles : Nat) (entries : List DirEntry) :
    ∀ files : List String, files.length ≤ maxFiles →
      (discoverLoop maxFiles entries files).length ≤ maxFiles := by
  induction entries with
  | nil =>
      intro files h
      exact h
  | cons e rest ih =>
      intro files h
      unfold discoverLoop
      split
      · exact ih files h
      · split
        · exact ih files h
        · split
          · exact h
          · rename_i hcap
            refine ih _ ?_
            rw [List.length_append]
            simp only [List.length_singleton]
            omega

theorem discoverFiles_length_le (entries : List DirEntry) (maxFiles : Nat) :
    (discoverFiles entries maxFiles).length ≤ maxFiles :=
  discoverLoop_length_le maxFiles entries [] (Nat.zero_le maxFiles)

/-!
## Hot-list ordering
-/

theorem hotLe_trans : ∀ a b c : CallGraphNode, hotLe a b → hotLe b c → hotLe a c := by
  intro a b c hab hbc
  simp only [hotLe, decide_eq_true_eq] at hab hbc ⊢
  rcases hab with h1 | ⟨h1, h2⟩ <;> rcases hbc with h3 | ⟨h3, h4⟩
  · exact Or.inl (by omega)
  · exact Or.inl (by omega)
  · exact Or.inl (by omega)
  · exact Or.inr ⟨by omega, le_trans h2 h4⟩

theorem hotLe_total : ∀ a b : CallGraphNode, hotLe a b || hotLe b a := by
  intro a b
  simp only [Bool.or_eq_true, hotLe, decide_eq_true_eq]
  rcases Nat.lt_trichotomy a.centrality_score b.centrality_score with h | h | h
  · exact Or.inr (Or.inl h)
  · rcases le_total a.name b.name with hn | hn
    · exact Or.inl (Or.inr ⟨h, hn⟩)
    · exact Or.inr (Or.inr ⟨h.symm, hn⟩)
  · exact Or.inl (Or.inl h)

theorem findHotFunctions_length_le (nodes : List CallGraphNode) (top_n : Nat) :
    (findHotFunctions nodes top_n).length ≤ top_n := by
  unfold findHotFunctions
  rw [List.length_take]
  exact Nat.min_le_left _ _

theorem findHotFunctions_sorted (nodes : List CallGraphNode) (top_n : Nat) :
    (findHotFunctions nodes top_n).Pairwise HotOrder := by
  unfold findHotFunctions
  have hs : (nodes.mergeSort hotLe).Pairwise (fun a b => hotLe a b) :=
    List.sorted_mergeSort hotLe_trans hotLe_total nodes
  have hs' : (nodes.mergeSort hotLe).Pairwise HotOrder := by
    refine hs.imp ?_
    intro a b hab
    simpa only [hotLe, decide_eq_true_eq] using hab
  exact List.Pairwise.sublist (List.take_sublist _ _) hs'

/-!
## Call-graph equation lemmas
-/

theorem appendCallee_of_none (g : CallGraph) (cr ce : String)
    (h : g.lookup cr = none) : appendCallee g cr ce = g := by
  unfold appendCallee
  rw [h]

theorem appendCallee_of_mem (g : CallGraph) (cr ce : String) (n : CallGraphNode)
    (h : g.lookup cr = some n) (hm : ce ∈ n.callees) :
    appendCallee g cr ce = g := by
  unfold appendCallee
  rw [h]
  simp [hm]

theorem appendCallee_of_not_mem (g : CallGraph) (cr ce : String) (n : CallGraphNode)
    (h : g.lookup cr = some n) (hm : ce ∉ n.callees) :
    appendCallee g cr ce = g.set cr { n with callees := n.callees ++ [ce] } := by
  unfold appendCallee
  rw [h]
  simp [hm]

theorem appendCaller_of_none (g : CallGraph) (ce cr : String)
    (h : g.lookup ce = none) : appendCaller g ce cr = g := by
  unfold appendCaller
  rw [h]

theorem appendCaller_of_mem (g : CallGraph) (ce cr : String) (n : CallGraphNode)
    (h : g.lookup ce = some n) (hm : cr ∈ n.callers) :
    appendCaller g ce cr = g := by
  unfold appendCaller
  rw [h]
  simp [hm]

theorem appendCaller_of_not_mem (g : CallGraph) (ce cr : String) (n : CallGraphNode)
    (h : g.lookup ce = some n) (hm : cr ∉ n.callers) :
    appendCaller g ce cr = g.set ce { n with callers := n.callers ++ [cr] } := by
  unfold appendCaller
  rw [h]
  simp [hm]

theorem ensureCallNode_of_isSome (g : CallGraph) (k : String)
    (h : (g.lookup k).isSome) : ensureCallNode g k = g := by
  unfold ensureCallNode
  simp [h]

theorem ensureCallNode_of_none (g : CallGraph) (k : String)
    (h : g.lookup k = none) : ensureCallNode g k = g.set k { name := k } := by
  unfold ensureCallNode
  simp [h]

theorem ensureCallNode_isSome_self (g : CallGraph) (k : String) :
    ((ensureCallNode g k).lookup k).isSome := by
  unfold ensureCallNode
  split
  · assumption
  · simp

theorem isSome_ensureCallNode (g : CallGraph) (k x : String)
    (h : (g.lookup x).isSome) : ((ensureCallNode g k).lookup x).isSome := by
  unfold ensureCallNode
  split
  · exact h
  · exact OMap.isSome_lookup_set g k x _ h

theorem mem_callers_iff_of_symm (g : CallGraph) (hsym : CallSymm g)
    (cr ce : String) (ncr nce : CallGraphNode)
    (hcr : g.lookup cr = some ncr) (hce : g.lookup ce = some nce) :
    ce ∈ ncr.callees ↔ cr ∈ nce.callers := by
  constructor
  · intro hm
    obtain ⟨nb, hnb, hb⟩ := (hsym cr ce).mp ⟨ncr, hcr, hm⟩
    rw [hce] at hnb
    cases hnb
    exact hb
  · intro hm
    obtain ⟨na, hna, ha⟩ := (hsym cr ce).mpr ⟨nce, hce, hm⟩
    rw [hcr] at hna
    cases hna
    exact ha

/-!
## Description of `addCallEdgeCore`
-/

theorem addCallEdgeCore_of_mem (g : CallGraph) (cr ce : String)
    (ncr nce : CallGraphNode)
    (hcr : g.lookup cr = some ncr) (hce : g.lookup ce = some nce)
    (hsym : CallSymm g) (hm : ce ∈ ncr.callees) :
    addCallEdgeCore g cr ce = g := by
  unfold addCallEdgeCore
  rw [appendCallee_of_mem g cr ce ncr hcr hm]
  exact appendCaller_of_mem g ce cr nce hce
    ((mem_callers_iff_of_symm g hsym cr ce ncr nce hcr hce).mp hm)

theorem addCallEdgeCore_of_not_mem_ne (g : CallGraph) (cr ce : String)
    (ncr nce : CallGraphNode)
    (hcr : g.lookup cr = some ncr) (hce : g.lookup ce = some nce)
    (hsym : CallSymm g) (hm : ce ∉ ncr.callees) (hec : ce ≠ cr) :
    addCallEdgeCore g cr ce =
      (g.set cr { ncr with callees := ncr.callees ++ [ce] }).set ce
        { nce with callers := nce.callers ++ [cr] } := by
  unfold addCallEdgeCore
  rw [appendCallee_of_not_mem g cr ce ncr hcr hm]
  have hlt : ((g.set cr { ncr with callees := ncr.callees ++ [ce] }).lookup ce) = some nce := by
    rw [OMap.lookup_set_ne _ _ _ _ hec]
    exact hce
  exact appendCaller_of_not_mem _ ce cr nce hlt
    (fun hc => hm ((mem_callers_iff_of_symm g hsym cr ce ncr nce hcr hce).mpr hc))

theorem addCallEdgeCore_of_not_mem_self (g : CallGraph) (cr : String)
    (ncr : CallGraphNode)
    (hcr : g.lookup cr = some ncr) (hsym : CallSymm g) (hm : cr ∉ ncr.callees) :
    addCallEdgeCore g cr cr =
      (g.set cr { ncr with callees := ncr.callees ++ [cr] }).set cr
        { ncr with callees := ncr.callees ++ [cr], callers := ncr.callers ++ [cr] } := by
  unfold addCallEdgeCore
  rw [appendCallee_of_not_mem g cr cr ncr hcr hm]
  have hlt : ((g.set cr { ncr with callees := ncr.callees ++ [cr] }).lookup cr)
      = some { ncr with callees := ncr.callees ++ [cr] } := by
    simp
  have hns : cr ∉ ({ ncr with callees := ncr.callees ++ [cr] } : CallGraphNode).callers :=
    fun hc => hm ((mem_callers_iff_of_symm g hsym cr cr ncr ncr hcr hcr).mpr hc)
  exact appendCaller_of_not_mem _ cr cr _ hlt hns

/-!
## Edge characterization of `addCallEdgeCore`
-/

theorem addCallEdgeCore_edge_iff (g : CallGraph) (cr ce : String)
    (ncr nce : CallGraphNode)
    (hcr : g.lookup cr = some ncr) (hce : g.lookup ce = some nce)
    (hsym : CallSymm g) (a b : String) :
    (∃ na, (addCallEdgeCore g cr ce).lookup a = some na ∧ b ∈ na.callees) ↔
    ((∃ na, g.lookup a = some na ∧ b ∈ na.callees) ∨ (a = cr ∧ b = ce)) := by
  by_cases hm : ce ∈ ncr.callees
  · rw [addCallEdgeCore_of_mem g cr ce ncr nce hcr hce hsym hm]
    constructor
    · exact fun h => Or.inl h
    · rintro (h | ⟨ha, hb⟩)
      · exact h
      · subst ha
        subst hb
        exact ⟨ncr, hcr, hm⟩
  · by_cases hec : ce = cr
    · subst hec
      rw [hcr] at hce
      cases hce
      rw [addCallEdgeCore_of_not_mem_self g ce ncr hcr hsym hm]
      constructor
      · rintro ⟨na, hna, hb⟩
        simp only [OMap.lookup_set] at hna
        by_cases hat : a = ce
        · simp only [if_pos hat] at hna
          cases hna
          rcases List.mem_append.mp hb with hb' | hb'
          · exact Or.inl ⟨ncr, by rw [hat]; exact hcr, hb'⟩
          · exact Or.inr ⟨hat, List.mem_singleton.mp hb'⟩
        · simp only [if_neg hat] at hna
          exact Or.inl ⟨na, hna, hb⟩
      · rintro (⟨na, hna, hb⟩ | ⟨ha, hb⟩)
        · simp only [OMap.lookup_set]
          by_cases hat : a = ce
          · rw [hat] at hna
            rw [hcr] at hna
            cases hna
            refine ⟨{ ncr with callees := ncr.callees ++ [ce], callers := ncr.callers ++ [ce] }, ?_, ?_⟩
            · simp [hat]
            · exact List.mem_append_left _ hb
          · refine ⟨na, ?_, hb⟩
            simpa [hat] using hna
        · refine ⟨{ ncr with callees := ncr.callees ++ [ce], callers := ncr.callers ++ [ce] }, ?_, ?_⟩
          · simp [OMap.lookup_set, ha]
          · rw [hb]
            exact List.mem_append_right _ (List.mem_singleton_self ce)
    · rw [addCallEdgeCore_of_not_mem_ne g cr ce ncr nce hcr hce hsym hm hec]
      have hce' : cr ≠ ce := fun h => hec h.symm
      constructor
      · rintro ⟨na, hna, hb⟩
        simp only [OMap.lookup_set] at hna
        by_cases hat : a = ce
        · simp only [if_pos hat] at hna
          cases hna
          exact Or.inl ⟨nce, by rw [hat]; exact hce, hb⟩
        · simp only [if_neg hat] at hna
          by_cases has : a = cr
          · simp only [if_pos has] at hna
            cases hna
            rcases List.mem_append.mp hb with hb' | hb'
            · exact Or.inl ⟨ncr, by rw [has]; exact hcr, hb'⟩
            · exact Or.inr ⟨has, List.mem_singleton.mp hb'⟩
          · simp only [if_neg has] at hna
            exact Or.inl ⟨na, hna, hb⟩
      · rintro (⟨na, hna, hb⟩ | ⟨ha, hb⟩)
        · simp only [OMap.lookup_set]
          by_cases hat : a = ce
          · rw [hat] at hna
            rw [hce] at hna
            cases hna
            refine ⟨{ nce with callers := nce.callers ++ [cr] }, ?_, ?_⟩
            · simp [hat]
            · exact hb
          · by_cases has : a = cr
            · rw [has] at hna
              rw [hcr] at hna
              cases hna
              refine ⟨{ ncr with callees := ncr.callees ++ [ce] }, ?_, ?_⟩
              · simp [has, hce']
              · exact List.mem_append_left _ hb
            · refine ⟨na, ?_, hb⟩
              simpa [hat, has] using hna
        · refine ⟨{ ncr with callees := ncr.callees ++ [ce] }, ?_, ?_⟩
          · simp [OMap.lookup_set, ha, hce']
          · rw [hb]
            exact List.mem_append_right _ (List.mem_singleton_self ce)

theorem addCallEdgeCore_revEdge_iff (g : CallGraph) (cr ce : String)
    (ncr nce : CallGraphNode)
    (hcr : g.lookup cr = some ncr) (hce : g.lookup ce = some nce)
    (hsym : CallSymm g) (a b : String) :
    (∃ nb, (addCallEdgeCore g cr ce).lookup b = some nb ∧ a ∈ nb.callers) ↔
    ((∃ nb, g.lookup b = some nb ∧ a ∈ nb.callers) ∨ (a = cr ∧ b = ce)) := by
  by_cases hm : ce ∈ ncr.callees
  · rw [addCallEdgeCore_of_mem g cr ce ncr nce hcr hce hsym hm]
    constructor
    · exact fun h => Or.inl h
    · rintro (h | ⟨ha, hb⟩)
      · exact h
      · subst ha
        subst hb
        exact ⟨nce, hce, (mem_callers_iff_of_symm g hsym a b ncr nce hcr hce).mp hm⟩
  · by_cases hec : ce = cr
    · subst hec
      rw [hcr] at hce
      cases hce
      rw [addCallEdgeCore_of_not_mem_self g ce ncr hcr hsym hm]
      constructor
      · rintro ⟨nb, hnb, hb⟩
        simp only [OMap.lookup_set] at hnb
        by_cases hbt : b = ce
        · simp only [if_pos hbt] at hnb
          cases hnb
          rcases List.mem_append.mp hb with hb' | hb'
          · exact Or.inl ⟨ncr, by rw [hbt]; exact hcr, hb'⟩
          · exact Or.inr ⟨List.mem_singleton.mp hb', hbt⟩
        · simp only [if_neg hbt] at hnb
          exact Or.inl ⟨nb, hnb, hb⟩
      · rintro (⟨nb, hnb, hb⟩ | ⟨ha, hb⟩)
        · simp only [OMap.lookup_set]
          by_cases hbt : b = ce
          · rw [hbt] at hnb
            rw [hcr] at hnb
            cases hnb
            refine ⟨{ ncr with callees := ncr.callees ++ [ce], callers := ncr.callers ++ [ce] }, ?_, ?_⟩
            · simp [hbt]
            · exact List.mem_append_left _ hb
          · refine ⟨nb, ?_, hb⟩
            simpa [hbt] using hnb
        · refine ⟨{ ncr with callees := ncr.callees ++ [ce], callers := ncr.callers ++ [ce] }, ?_, ?_⟩
          · simp [OMap.lookup_set, hb]
          · rw [ha]
            exact List.mem_append_right _ (List.mem_singleton_self ce)
    · rw [addCallEdgeCore_of_not_mem_ne g cr ce ncr nce hcr hce hsym hm hec]
      have hce' : cr ≠ ce := fun h => hec h.symm
      constructor
      · rintro ⟨nb, hnb, hb⟩
        simp only [OMap.lookup_set] at hnb
        by_cases hbt : b = ce
        · simp only [if_pos hbt] at hnb
          cases hnb
          rcases List.mem_append.mp hb with hb' | hb'
          · exact Or.inl ⟨nce, by rw [hbt]; exact hce, hb'⟩
          · exact Or.inr ⟨List.mem_singleton.mp hb', hbt⟩
        · simp only [if_neg hbt] at hnb
          by_cases hbs : b = cr
          · simp only [if_pos hbs] at hnb
            cases hnb
            exact Or.inl ⟨ncr, by rw [hbs]; exact hcr, hb⟩
          · simp only [if_neg hbs] at hnb
            exact Or.inl ⟨nb, hnb, hb⟩
      · rintro (⟨nb, hnb, hb⟩ | ⟨ha, hb⟩)
        · simp only [OMap.lookup_set]
          by_cases hbt : b = ce
          · rw [hbt] at hnb
            rw [hce] at hnb
            cases hnb
            refine ⟨{ nce with callers := nce.callers ++ [cr] }, ?_, ?_⟩
            · simp [hbt]
            · exact List.mem_append_left _ hb
          · by_cases hbs : b = cr
            · rw [hbs] at hnb
              rw [hcr] at hnb
              cases hnb
              refine ⟨{ ncr with callees := ncr.callees ++ [ce] }, ?_, ?_⟩
              · simp [hbs, hce']
              · exact hb
            · refine ⟨nb, ?_, hb⟩
              simpa [hbt, hbs] using hnb
        · refine ⟨{ nce with callers := nce.callers ++ [cr] }, ?_, ?_⟩
          · simp [OMap.lookup_set, hb]
          · rw [ha]
            exact List.mem_append_right _ (List.mem_singleton_self cr)

/-!
## Invariant preservation for the call-graph builder
-/

theorem callSymm_addCallEdgeCore (g : CallGraph) (cr ce : String)
    (ncr nce : CallGraphNode)
    (hcr : g.lookup cr = some ncr) (hce : g.lookup ce = some nce)
    (hsym : CallSymm g) : CallSymm (addCallEdgeCore g cr ce) := by
  intro a b
  rw [addCallEdgeCore_edge_iff g cr ce ncr nce hcr hce hsym a b,
    addCallEdgeCore_revEdge_iff g cr ce ncr nce hcr hce hsym a b, hsym a b]

theorem edgeNodupC_addCallEdgeCore (g : CallGraph) (cr ce : String)
    (ncr nce : CallGraphNode)
    (hcr : g.lookup cr = some ncr) (hce : g.lookup ce = some nce)
    (hsym : CallSymm g) (hnd : EdgeNodupC g) :
    EdgeNodupC (addCallEdgeCore g cr ce) := by
  by_cases hm : ce ∈ ncr.callees
  · rw [addCallEdgeCore_of_mem g cr ce ncr nce hcr hce hsym hm]
    exact hnd
  · by_cases hec : ce = cr
    · subst hec
      rw [hcr] at hce
      cases hce
      rw [addCallEdgeCore_of_not_mem_self g ce ncr hcr hsym hm]
      intro a na hna
      simp only [OMap.lookup_set] at hna
      by_cases hat : a = ce
      · simp only [if_pos hat] at hna
        cases hna
        have hmb : ce ∉ ncr.callers :=
          fun hc => hm ((mem_callers_iff_of_symm g hsym ce ce ncr ncr hcr hcr).mpr hc)
        exact ⟨List.Nodup.concat hm (hnd ce ncr hcr).1 |>.sublist (by simp),
          List.Nodup.concat hmb (hnd ce ncr hcr).2 |>.sublist (by simp)⟩
      · simp only [if_neg hat] at hna
        exact hnd a na hna
    · rw [addCallEdgeCore_of_not_mem_ne g cr ce ncr nce hcr hce hsym hm hec]
      intro a na hna
      simp only [OMap.lookup_set] at hna
      by_cases hat : a = ce
      · simp only [if_pos hat] at hna
        cases hna
        have hmb : cr ∉ nce.callers :=
          fun hc => hm ((mem_callers_iff_of_symm g hsym cr ce ncr nce hcr hce).mpr hc)
        exact ⟨(hnd ce nce hce).1,
          List.Nodup.concat hmb (hnd ce nce hce).2 |>.sublist (by simp)⟩
      · simp only [if_neg hat] at hna
        by_cases has : a = cr
        · simp only [if_pos has] at hna
          cases hna
          exact ⟨List.Nodup.concat hm (hnd cr ncr hcr).1 |>.sublist (by simp),
            (hnd cr ncr hcr).2⟩
        · simp only [if_neg has] at hna
          exact hnd a na hna

theorem invC_set_fresh (g : CallGraph) (k : String)
    (hn : g.lookup k = none) (hinv : InvC g) :
    InvC (g.set k { name := k }) := by
  obtain ⟨hsym, hnd⟩ := hinv
  constructor
  · intro a b
    constructor
    · rintro ⟨na, hna, hb⟩
      simp only [OMap.lookup_set] at hna
      by_cases has : a = k
      · simp only [if_pos has] at hna
        cases hna
        simp at hb
      · simp only [if_neg has] at hna
        obtain ⟨nb, hnb, hab⟩ := (hsym a b).mp ⟨na, hna, hb⟩
        by_cases hbs : b = k
        · rw [hbs, hn] at hnb
          cases hnb
        · exact ⟨nb, by simp only [OMap.lookup_set, if_neg hbs]; exact hnb, hab⟩
    · rintro ⟨nb, hnb, hb⟩
      simp only [OMap.lookup_set] at hnb
      by_cases hbs : b = k
      · simp only [if_pos hbs] at hnb
        cases hnb
        simp at hb
      · simp only [if_neg hbs] at hnb
        obtain ⟨na, hna, hab⟩ := (hsym a b).mpr ⟨nb, hnb, hb⟩
        by_cases has : a = k
        · rw [has, hn] at hna
          cases hna
        · exact ⟨na, by simp only [OMap.lookup_set, if_neg has]; exact hna, hab⟩
  · intro a na hna
    simp only [OMap.lookup_set] at hna
    by_cases has : a = k
    · simp only [if_pos has] at hna
      cases hna
      constructor <;> simp
    · simp only [if_neg has] at hna
      exact hnd a na hna

theorem invC_ensureCallNode (g : CallGraph) (k : String) (hinv : InvC g) :
    InvC (ensureCallNode g k) := by
  cases hl : g.lookup k with
  | some n =>
      rw [ensureCallNode_of_isSome g k (by rw [hl]; rfl)]
      exact hinv
  | none =>
      rw [ensureCallNode_of_none g k hl]
      exact invC_set_fresh g k hl hinv

theorem invC_addCallEdge (g : CallGraph) (cr ce : String) (hinv : InvC g) :
    InvC (addCallEdge g cr ce) := by
  unfold addCallEdge
  have hinv2 : InvC (ensureCallNode (ensureCallNode g cr) ce) :=
    invC_ensureCallNode _ ce (invC_ensureCallNode g cr hinv)
  have hcr : ((ensureCallNode (ensureCallNode g cr) ce).lookup cr).isSome :=
    isSome_ensureCallNode _ ce cr (ensureCallNode_isSome_self g cr)
  have hce : ((ensureCallNode (ensureCallNode g cr) ce).lookup ce).isSome :=
    ensureCallNode_isSome_self _ ce
  obtain ⟨ncr, hncr⟩ := Option.isSome_iff_exists.mp hcr
  obtain ⟨nce, hnce⟩ := Option.isSome_iff_exists.mp hce
  exact ⟨callSymm_addCallEdgeCore _ cr ce ncr nce hncr hnce hinv2.1,
    edgeNodupC_addCallEdgeCore _ cr ce ncr nce hncr hnce hinv2.1 hinv2.2⟩

theorem invC_processCall (index : String → List String) (g : CallGraph) (c : CallInfo)
    (hinv : InvC g) : InvC (processCall index g c) := by
  unfold processCall
  have h : ∀ (l : List String) (g : CallGraph), InvC g →
      InvC (l.foldl (fun g t => addCallEdge g c.callerFqn t) g) := by
    intro l
    induction l with
    | nil => exact fun g hg => hg
    | cons t rest ih =>
        intro g hg
        exact ih _ (invC_addCallEdge g c.callerFqn t hg)
  exact h _ g hinv

theorem allEmptyC_defsFold (defs : List DefinitionInfo) :
    AllEmptyC (defs.foldl
      (fun g d => g.set d.fqn { name := d.fqn, type := d.type }) OMap.empty) := by
  have h : ∀ (l : List DefinitionInfo) (g : CallGraph), AllEmptyC g →
      AllEmptyC (l.foldl (fun g d => g.set d.fqn { name := d.fqn, type := d.type }) g) := by
    intro l
    induction l with
    | nil => exact fun g hg => hg
    | cons d rest ih =>
        intro g hg
        refine ih _ ?_
        intro a na hna
        simp only [OMap.lookup_set] at hna
        by_cases hap : a = d.fqn
        · simp only [if_pos hap] at hna
          cases hna
          exact ⟨rfl, rfl⟩
        · simp only [if_neg hap] at hna
          exact hg a na hna
  exact h defs OMap.empty (by intro a na hna; simp at hna)

theorem invC_of_allEmpty (g : CallGraph) (h : AllEmptyC g) : InvC g := by
  constructor
  · intro a b
    constructor
    · rintro ⟨na, hna, hb⟩
      rw [(h a na hna).1] at hb
      simp at hb
    · rintro ⟨nb, hnb, hb⟩
      rw [(h b nb hnb).2] at hb
      simp at hb
  · intro a na hna
    rw [(h a na hna).1, (h a na hna).2]
    exact ⟨List.nodup_nil, List.nodup_nil⟩

theorem invC_buildCallGraph (defs : List DefinitionInfo) (calls : List CallInfo) :
    InvC (buildCallGraph defs calls) := by
  unfold buildCallGraph
  have h : ∀ (l : List CallInfo) (g : CallGraph), InvC g →
      InvC (l.foldl (processCall (nameIndex defs)) g) := by
    intro l
    induction l with
    | nil => exact fun g hg => hg
    | cons c rest ih =>
        intro g hg
        exact ih _ (invC_processCall (nameIndex defs) g c hg)
  exact h calls _ (invC_of_allEmpty _ (allEmptyC_defsFold defs))

theorem lookup_callCalculateCentrality (g : CallGraph) (k : String) :
    (callCalculateCentrality g).lookup k =
      (g.lookup k).map fun n =>
        { n with centrality_score := n.callers.length * 2 + n.callees.length } := rfl

theorem processImport_resolve_none (allFiles : List String) (g : Graph) (imp : ImportInfo)
    (h : resolveImportToFile imp.target_module allFiles = none) :
    processImport allFiles g imp = ensureSource g imp.source_file := by
  unfold processImport
  rw [h]

theorem allEmptyG_ensureSource (g : Graph) (s : String) (h : AllEmptyG g) :
    AllEmptyG (ensureSource g s) := by
  cases hl : g.lookup s with
  | some n =>
      rw [ensureSource_of_isSome g s (by rw [hl]; rfl)]
      exact h
  | none =>
      rw [ensureSource_of_none g s hl]
      intro a na hna
      simp only [OMap.lookup_set] at hna
      by_cases has : a = s
      · simp only [if_pos has] at hna
        cases hna
        exact ⟨rfl, rfl⟩
      · simp only [if_neg has] at hna
        exact h a na hna

/-!
## Claim theorems
-/

/-- C1: Edge symmetry — for every list of Import records and every file
list, in the mapping returned by the import-graph builder, `B ∈ A.imports`
iff `A ∈ B.imported_by`; analogously, in the call graph built from any
definitions and calls, `B ∈ A.callees` iff `A ∈ B.callers`. -/
theorem edge_symmetry :
    (∀ (imports : List ImportInfo) (allFiles : List String) (a b : String)
        (na nb : FileNode),
      (buildImportGraph imports allFiles).lookup a = some na →
      (buildImportGraph imports allFiles).lookup b = some nb →
      (b ∈ na.imports ↔ a ∈ nb.imported_by)) ∧
    (∀ (defs : List DefinitionInfo) (calls : List CallInfo) (a b : String)
        (na nb : CallGraphNode),
      (buildCallGraph defs calls).lookup a = some na →
      (buildCallGraph defs calls).lookup b = some nb →
      (b ∈ na.callees ↔ a ∈ nb.callers)) := by
  constructor
  · intro imports allFiles a b na nb ha hb
    exact mem_imported_by_iff_of_symm _ (invG_buildImportGraph imports allFiles).1
      a b na nb ha hb
  · intro defs calls a b na nb ha hb
    exact mem_callers_iff_of_symm _ (invC_buildCallGraph defs calls).1
      a b na nb ha hb

/-- Witness for C1 at a concrete input: `a.py` imports `b`. -/
theorem edge_symmetry_witness :
    (buildImportGraph [⟨"a.py", "b", 1, "import", []⟩] ["a.py", "b.py"]).lookup "a.py"
      = some ⟨"a.py", ["b.py"], [], 0⟩ ∧
    (buildImportGraph [⟨"a.py", "b", 1, "import", []⟩] ["a.py", "b.py"]).lookup "b.py"
      = some ⟨"b.py", [], ["a.py"], 0⟩ ∧
    ("b.py" ∈ (["b.py"] : List String) ↔ "a.py" ∈ (["a.py"] : List String)) :=
  ⟨by decide, by decide,
    edge_symmetry.1 [⟨"a.py", "b", 1, "import", []⟩] ["a.py", "b.py"] "a.py" "b.py"
      ⟨"a.py", ["b.py"], [], 0⟩ ⟨"b.py", [], ["a.py"], 0⟩ (by decide) (by decide)⟩

/-- C2: Total coverage — the mapping returned by the import-graph builder
contains a FileNode keyed by `p` for every `p` in `allFiles`, even when `p`
participates in no edges. -/
theorem total_coverage (imports : List ImportInfo) (allFiles : List String)
    (p : String) (hp : p ∈ allFiles) :
    ((buildImportGraph imports allFiles).lookup p).isSome :=
  isSome_buildImportGraph imports allFiles p hp

/-- Witness for C2 at a concrete input: `c.py` participates in no edge and
still has a node. -/
theorem total_coverage_witness :
    "c.py" ∈ (["a.py", "c.py"] : List String) ∧
    ((buildImportGraph [] ["a.py", "c.py"]).lookup "c.py").isSome :=
  ⟨by decide, total_coverage [] ["a.py", "c.py"] "c.py" (by decide)⟩

/-- C3: Centrality formula — after centrality calculation, every node's
score equals `2 * |incoming| + 1 * |outgoing|`, in both the import graph
(`2*len(imported_by) + len(imports)`) and the call graph
(`2*len(callers) + len(callees)`). -/
theorem centrality_formula :
    (∀ (g : Graph) (k : String) (n : FileNode),
      (calculateCentrality g).lookup k = some n →
      n.centrality_score = 2 * n.imported_by.length + n.imports.length) ∧
    (∀ (g : CallGraph) (k : String) (n : CallGraphNode),
      (callCalculateCentrality g).lookup k = some n →
      n.centrality_score = 2 * n.callers.length + n.callees.length) := by
  constructor
  · intro g k n h
    rw [lookup_calculateCentrality] at h
    cases hl : g.lookup k with
    | none =>
        rw [hl] at h
        cases h
    | some m =>
        rw [hl, Option.map_some'] at h
        cases h
        show m.imported_by.length * 2 + m.imports.length
          = 2 * m.imported_by.length + m.imports.length
        omega
  · intro g k n h
    rw [lookup_callCalculateCentrality] at h
    cases hl : g.lookup k with
    | none =>
        rw [hl] at h
        cases h
    | some m =>
        rw [hl, Option.map_some'] at h
        cases h
        show m.callers.length * 2 + m.callees.length
          = 2 * m.callers.length + m.callees.length
        omega

/-- Witness for C3 at a concrete input: a node with one incoming and no
outgoing edges scores 2. -/
theorem centrality_formula_witness :
    (calculateCentrality
        (buildImportGraph [⟨"a.py", "b", 1, "import", []⟩] ["a.py", "b.py"])).lookup "b.py"
      = some ⟨"b.py", [], ["a.py"], 2⟩ ∧
    (FileNode.mk "b.py" [] ["a.py"] 2).centrality_score
      = 2 * (FileNode.mk "b.py" [] ["a.py"] 2).imported_by.length
        + (FileNode.mk "b.py" [] ["a.py"] 2).imports.length :=
  ⟨by decide,
    centrality_formula.1
      (buildImportGraph [⟨"a.py", "b", 1, "import", []⟩] ["a.py", "b.py"]) "b.py"
      ⟨"b.py", [], ["a.py"], 2⟩ (by decide)⟩

/-- C4: Import resolution candidate order — for a dotted module reference
(no `/`), resolution probes, in order: (a) the segments joined as a
relative path with `.py`, (b) the same with the leading segment dropped,
(c) the segments joined as a directory with `/__init__.py`, returning the
first candidate present in `allFiles`; when none is present the import
contributes no edge and no error is raised. -/
theorem resolve_candidate_order (m : String) (allFiles : List String)
    (hnr : strContains m '/' = false) :
    (resolveImportToFile m allFiles =
      (let parts := strSplit m '.'
       let ca := strJoin "/" parts ++ ".py"
       let cb := strJoin "/" (parts.drop 1) ++ ".py"
       let cc := strJoin "/" parts ++ "/__init__.py"
       if ca ∈ allFiles then some ca
       else if cb ∈ allFiles then some cb
       else if cc ∈ allFiles then some cc
       else none)) ∧
    (resolveImportToFile m allFiles = none →
      ∀ (src p : String) (n : FileNode),
        (buildImportGraph [⟨src, m, 0, "import", []⟩] allFiles).lookup p = some n →
        n.imports = [] ∧ n.imported_by = []) := by
  constructor
  · simp only [resolveImportToFile, hnr, Bool.false_eq_true, if_false, findCandidate]
  · intro hres src p n hn
    have heq : buildImportGraph [⟨src, m, 0, "import", []⟩] allFiles
        = ensureSource (initNodes allFiles) src := by
      unfold buildImportGraph
      rw [List.foldl_cons, List.foldl_nil]
      exact processImport_resolve_none allFiles _ _ hres
    rw [heq] at hn
    exact allEmptyG_ensureSource _ src (allEmptyG_initNodes allFiles) p n hn

/-- Witness for C4 at a concrete input: `scantool.scanner` resolves by
root-package stripping (candidate (b)). -/
theorem resolve_candidate_order_witness :
    strContains "scantool.scanner" '/' = false ∧
    resolveImportToFile "scantool.scanner" ["scanner.py"] = some "scanner.py" := by
  refine ⟨by decide, ?_⟩
  have h := (resolve_candidate_order "scantool.scanner" ["scanner.py"] (by decide)).1
  rw [h]
  decide

/-- C10: a module reference containing `/` is treated as an
already-resolved path: the only candidate probed is the reference with
`.py` appended, and no fallback candidate is tried. -/
theorem resolve_slash_path (m : String) (allFiles : List String)
    (h : strContains m '/' = true) :
    resolveImportToFile m allFiles =
      (if (m ++ ".py") ∈ allFiles then some (m ++ ".py") else none) := by
  simp only [resolveImportToFile, h, if_true]

/-- Witness for C10 at a concrete input: `pkg/mod` resolves only via
`pkg/mod.py`; with no exact match the result is `none` even though the
package-entry fallback `pkg/mod/__init__.py` is listed. -/
theorem resolve_slash_path_witness :
    strContains "pkg/mod" '/' = true ∧
    resolveImportToFile "pkg/mod" ["pkg/mod.py"] = some "pkg/mod.py" ∧
    resolveImportToFile "pkg/mod" ["pkg/mod/__init__.py"] = none := by
  refine ⟨by decide, ?_, ?_⟩
  · rw [resolve_slash_path "pkg/mod" ["pkg/mod.py"] (by decide)]
    decide
  · rw [resolve_slash_path "pkg/mod" ["pkg/mod/__init__.py"] (by decide)]
    decide

/-- C5 (counterexample): a file whose extraction fails can still have a
non-empty `imported_by` edge set — here `b.py` fails to read yet ends with
`imported_by = ["a.py"]` (and centrality 2), so its edge sets are not all
empty and it is not an isolated node. -/
theorem extraction_failure_not_isolated_cex :
    cexExtract "b.py" = none ∧
    (analyze true ["a.py", "b.py"] cexExtract).import_graph.lookup "b.py"
      = some ⟨"b.py", [], ["a.py"], 2⟩ := by
  exact ⟨rfl, by decide⟩

/-- C5 (amended): a file whose extraction fails contributes no
Import/Definition/Call records; its FileNode still exists in the returned
graph of imports and its `imports` list is empty; but its `imported_by`
list may be populated by other files. -/
theorem extraction_failure_recovery (el : Bool) (files : List String)
    (extract : String → Option FileExtraction) (f : String)
    (hf : f ∈ files) (hfail : extract f = none)
    (hwf : ∀ p ∈ files, ∀ ex, extract p = some ex →
      (∀ imp ∈ ex.imports, imp.source_file = p) ∧
      (∀ d ∈ ex.definitions, d.file = p) ∧
      (∀ c ∈ ex.calls, c.caller_file = p)) :
    (∀ imp ∈ (accumulate el files extract).imports, imp.source_file ≠ f) ∧
    (∀ d ∈ (accumulate el files extract).definitions, d.file ≠ f) ∧
    (∀ c ∈ (accumulate el files extract).calls, c.caller_file ≠ f) ∧
    (∃ n, (analyze el files extract).import_graph.lookup f = some n ∧ n.imports = []) := by
  obtain ⟨h1, h2, h3⟩ := accumulate_not_from_failed el files extract f hfail hwf
  refine ⟨h1, h2, h3, ?_⟩
  rw [analyze_import_graph_eq]
  obtain ⟨n, hn, hni⟩ :=
    imports_buildImportGraph (accumulate el files extract).imports files f hf h1
  refine ⟨{ n with centrality_score := n.imported_by.length * 2 + n.imports.length },
    ?_, ?_⟩
  · rw [lookup_calculateCentrality, hn]
    rfl
  · exact hni

/-- Witness for C5's amended theorem: `b.py` fails extraction, keeps its
node, and contributes no outgoing edge. -/
theorem extraction_failure_recovery_witness :
    (∀ imp ∈ (accumulate true ["a.py", "b.py"] cexExtract).imports,
      imp.source_file ≠ "b.py") ∧
    (∀ d ∈ (accumulate true ["a.py", "b.py"] cexExtract).definitions,
      d.file ≠ "b.py") ∧
    (∀ c ∈ (accumulate true ["a.py", "b.py"] cexExtract).calls,
      c.caller_file ≠ "b.py") ∧
    (∃ n, (analyze true ["a.py", "b.py"] cexExtract).import_graph.lookup "b.py"
      = some n ∧ n.imports = []) :=
  extraction_failure_recovery true ["a.py", "b.py"] cexExtract "b.py"
    (by decide) rfl
    (by
      intro p hp ex hex
      rcases List.mem_cons.mp hp with hpa | hp'
      · subst hpa
        injection hex with hex
        subst hex
        refine ⟨?_, ?_, ?_⟩ <;> decide
      · rcases List.mem_singleton.mp hp' with rfl
        exact Option.noConfusion hex)

/-- C6: File-cap truncation — discovery returns at most `max_files` paths
without error; with cap 2 and three files discovered, exactly the first two
FileNodes exist, the third file is absent from the graph, and the result
reports a count of 2. -/
theorem file_cap_truncation :
    (∀ (entries : List DirEntry) (maxFiles : Nat),
      (discoverFiles entries maxFiles).length ≤ maxFiles) ∧
    (discoverFiles capEntries 2 = ["a.py", "b.py"] ∧
      (analyze true (discoverFiles capEntries 2) (fun _ => none)).import_graph.keys
        = ["a.py", "b.py"] ∧
      (analyze true (discoverFiles capEntries 2) (fun _ => none)).import_graph.lookup "c.py"
        = none ∧
      (analyze true (discoverFiles capEntries 2) (fun _ => none)).total_files = 2) := by
  refine ⟨discoverFiles_length_le, by decide, by decide, by decide, by decide⟩

/-- C7: No duplicate edges — in every FileNode of the built import graph,
the `imports` and `imported_by` lists contain no repeated path (repeated
imports of the same target add the edge only once); likewise for the call
graph's `callees`/`callers` sets. -/
theorem no_duplicate_edges :
    (∀ (imports : List ImportInfo) (allFiles : List String) (p : String) (n : FileNode),
      (buildImportGraph imports allFiles).lookup p = some n →
      n.imports.Nodup ∧ n.imported_by.Nodup) ∧
    (∀ (defs : List DefinitionInfo) (calls : List CallInfo) (p : String)
        (n : CallGraphNode),
      (buildCallGraph defs calls).lookup p = some n →
      n.callees.Nodup ∧ n.callers.Nodup) :=
  ⟨fun imports allFiles p n h => (invG_buildImportGraph imports allFiles).2 p n h,
    fun defs calls p n h => (invC_buildCallGraph defs calls).2 p n h⟩

/-- Witness for C7 at a concrete input: importing `b` twice from `a.py`
adds the edge only once. -/
theorem no_duplicate_edges_witness :
    (buildImportGraph [⟨"a.py", "b", 1, "import", []⟩, ⟨"a.py", "b", 2, "import", []⟩]
        ["a.py", "b.py"]).lookup "a.py" = some ⟨"a.py", ["b.py"], [], 0⟩ ∧
    ((["b.py"] : List String).Nodup ∧ ([] : List String).Nodup) :=
  ⟨by decide,
    no_duplicate_edges.1
      [⟨"a.py", "b", 1, "import", []⟩, ⟨"a.py", "b", 2, "import", []⟩]
      ["a.py", "b.py"] "a.py" ⟨"a.py", ["b.py"], [], 0⟩ (by decide)⟩

/-- C8: Hot-list contract — `find_hot` returns at most `top_n` nodes,
sorted by descending centrality score with ties broken by ascending
lexical order of the identity string, and an empty graph yields an empty
list. -/
theorem hot_list_contract :
    (∀ (nodes : List CallGraphNode) (top_n : Nat),
      (findHotFunctions nodes top_n).length ≤ top_n) ∧
    (∀ (nodes : List CallGraphNode) (top_n : Nat),
      (findHotFunctions nodes top_n).Pairwise HotOrder) ∧
    (∀ top_n : Nat, findHotFunctions [] top_n = []) := by
  refine ⟨findHotFunctions_length_le, findHotFunctions_sorted, ?_⟩
  intro top_n
  simp [findHotFunctions, List.mergeSort]

/-- C9: when Layer 2 is enabled but extraction yields no Definition
records, `analyze` skips call-graph construction: the result's call graph
is empty, `hot_functions` is empty, and the extracted Call records are not
recorded in the result. -/
theorem layer2_skip_no_definitions (files : List String)
    (extract : String → Option FileExtraction)
    (h : ∀ p ∈ files, ∀ ex, extract p = some ex → ex.definitions = []) :
    (analyze true files extract).call_graph = OMap.empty ∧
    (analyze true files extract).hot_functions = [] ∧
    (analyze true files extract).calls = [] ∧
    (analyze true files extract).definitions = [] :=
  analyze_of_defs_nil files extract (accumulate_definitions_nil true files extract h)

/-- Witness for C9: `a.py` yields one call and no definitions; the result
records no call graph, no hot functions and no calls. -/
theorem layer2_skip_no_definitions_witness :
    (analyze true ["a.py"] noDefsExtract).call_graph = OMap.empty ∧
    (analyze true ["a.py"] noDefsExtract).hot_functions = [] ∧
    (analyze true ["a.py"] noDefsExtract).calls = [] ∧
    (analyze true ["a.py"] noDefsExtract).definitions = [] :=
  layer2_skip_no_definitions ["a.py"] noDefsExtract
    (by
      intro p hp ex hex
      rcases List.mem_singleton.mp hp with rfl
      injection hex with hex
      subst hex
      rfl)

end Scantool
